import Mathlib

/-!
Verification of the CamVid dataset adapter (`inferno/io/box/camvid.py`).

The development shallowly embeds the path manipulation, the directory
indexer (`make_dataset` over `os.walk`), the label codec
(`label_to_long_tensor`, `label_to_pil_image`) and the `CamVid` dataset
class (`__init__`, `__getitem__`, `__len__`).

Modelling conventions:
* Python strings are `List Char` (`PyStr`); `str.replace` is modelled for
  non-empty patterns (the only patterns the code uses are the split names
  `train` / `val` / `test`).
* The filesystem seen by `os.walk` is a tree of `FSEntry` values whose
  lists record the listing order returned by the OS (`os.listdir` order,
  which Python does not sort).
* Torch tensors are a shape plus row-major flat data (`PyTensor`); each
  tensor operation materialises its result row-major, which is faithful
  because the source pipeline ends in `.contiguous()` and the modelled
  operations (`view`, `transpose`, `squeeze`) only permute or reshape.
* Raised exceptions become `Option`/`Except` results.
-/

/-- Python strings as lists of characters (compared by code point,
    as Python does). -/
abbrev PyStr := List Char

/-- Model of `os.path.join a b` in the common case of a relative second component
    and no trailing slash on `a`. -/
def pyJoin (a b : PyStr) : PyStr := a ++ '/' :: b

/-- Fuel-indexed worker for Python `str.replace`: scan left to right; at
    each position, if the (non-empty) pattern `old` is a prefix of the
    remaining string, emit `nw` and skip past the match, else copy one
    character.  The fuel is an upper bound on the length of the string
    still to scan, so the recursion is structural and kernel-reducible. -/
def pyReplaceAux (old nw : PyStr) : ℕ → PyStr → PyStr
  | _, [] => []
  | 0, s => s
  | fuel + 1, c :: rest =>
    if old.isPrefixOf (c :: rest) ∧ old ≠ []
    then nw ++ pyReplaceAux old nw fuel ((c :: rest).drop old.length)
    else c :: pyReplaceAux old nw fuel rest

/-- Python `s.replace(old, nw)` (all occurrences, left to right,
    non-overlapping), modelled for non-empty `old`; an empty pattern acts
    as the identity here. -/
def pyReplace (s old nw : PyStr) : PyStr := pyReplaceAux old nw s.length s

/-- The label-path computation of `CamVid.__getitem__`
    (line `path.replace(self.split, self.split + 'annot')`). -/
def labelPath (split path : PyStr) : PyStr :=
  pyReplace path split (split ++ ("annot".toList))

/-- The 12 CamVid class names (`CAMVID_CLASSES`). -/
def CAMVID_CLASSES : List String :=
  ["Sky", "Building", "Column-Pole", "Road", "Sidewalk", "Tree",
   "Sign-Symbol", "Fence", "Car", "Pedestrain", "Bicyclist", "Void"]

/-- The fixed RGB palette (`CAMVID_CLASS_COLORS`). -/
def CAMVID_CLASS_COLORS : List (ℕ × ℕ × ℕ) :=
  [(128, 128, 128),
   (128, 0, 0),
   (192, 192, 128),
   (128, 64, 128),
   (0, 0, 192),
   (128, 128, 0),
   (192, 128, 128),
   (64, 64, 128),
   (64, 0, 128),
   (64, 64, 0),
   (0, 128, 192),
   (0, 0, 0)]

/-- The per-pixel effect of the painting loop in `label_to_pil_image`:
    `colored_label` starts at zero and, for `i, color` in
    `enumerate(CAMVID_CLASS_COLORS)`, the three channels of every pixel
    whose label equals `i` are filled with `color`.  All the tensor
    operations involved (`eq`, `masked_fill_`) act pointwise, so the loop
    is exactly this per-pixel fold. -/
def paintPixel (v : ℤ) : ℕ × ℕ × ℕ :=
  CAMVID_CLASS_COLORS.enum.foldl
    (fun acc ic => if v = (ic.1 : ℤ) then ic.2 else acc) (0, 0, 0)

/-- A PIL image as `Image.fromarray` / `tobytes` see it: a size plus the
    raw bytes, row-major with the channels of one pixel interleaved. -/
structure PILImage where
  width : ℕ
  height : ℕ
  data : List ℕ

/-- The three bytes of one RGB pixel. -/
def pixelBytes (c : ℕ × ℕ × ℕ) : List ℕ := [c.1, c.2.1, c.2.2]

/-- Encoder `label_to_pil_image`: paint every pixel through the palette, transpose
    the `(3, h, w)` tensor to a `(h, w, 3)` array and build an RGB image
    from it.  Since the channel count is 3 (never 1), the grayscale branch
    of the source is dead and the mode is RGB; `tobytes` of the result is
    the row-major interleaved flattening below. -/
def label_to_pil_image (label : List (List ℤ)) : PILImage :=
  { width := (label.headD []).length
    height := label.length
    data := label.flatMap (fun row => row.flatMap (fun v => pixelBytes (paintPixel v))) }

/-- The RGB value of pixel `(r, c)` in an image, read from the raw bytes. -/
def pilPixel (img : PILImage) (r c : ℕ) : Option (ℕ × ℕ × ℕ) :=
  match img.data[3 * (r * img.width + c)]?,
        img.data[3 * (r * img.width + c) + 1]?,
        img.data[3 * (r * img.width + c) + 2]? with
  | some x, some y, some z => some (x, y, z)
  | _, _, _ => none

/-- A torch tensor: a shape and flat row-major data.  Every modelled
    operation materialises a row-major result, which matches the source
    because its pipeline ends in `.contiguous()`. -/
structure PyTensor where
  shape : List ℕ
  data : List ℕ
deriving DecidableEq

/-- Model of `Tensor.view`: succeeds exactly when the requested shape has the same
    number of elements (otherwise torch raises a RuntimeError). -/
def tview (t : PyTensor) (s : List ℕ) : Option PyTensor :=
  if s.prod = t.data.length then some ⟨s, t.data⟩ else none

/-- Model of `Tensor.transpose(0, 1)` on a 3-D tensor of shape `(a, b, c)`,
    materialised row-major: entry `(j, i, k)` of the result is entry
    `(i, j, k)` of the input. -/
def transpose01 (t : PyTensor) : PyTensor :=
  match t.shape with
  | [a, b, c] =>
    ⟨[b, a, c], (List.range (b * a * c)).map (fun n =>
      t.data.getD ((n % (a * c) / c) * (b * c) + (n / (a * c)) * c + n % c) 0)⟩
  | _ => t

/-- Model of `Tensor.transpose(0, 2)` on a 3-D tensor of shape `(a, b, c)`,
    materialised row-major: entry `(k, j, i)` of the result is entry
    `(i, j, k)` of the input. -/
def transpose02 (t : PyTensor) : PyTensor :=
  match t.shape with
  | [a, b, c] =>
    ⟨[c, b, a], (List.range (c * b * a)).map (fun n =>
      t.data.getD ((n % a) * (b * c) + (n % (b * a) / a) * c + n / (b * a)) 0)⟩
  | _ => t

/-- Model of `Tensor.squeeze()`: remove every dimension of size 1.  Dropping a
    singleton dimension does not change the row-major linearisation, so
    the data is unchanged. -/
def tsqueeze (t : PyTensor) : PyTensor :=
  ⟨t.shape.filter (fun d => d ≠ 1), t.data⟩

/-- Decoder `label_to_long_tensor`: build a byte tensor from the image's raw
    buffer, `view` it as `(height, width, 1)` (`pic.size` is
    `(width, height)`), transpose twice, squeeze, and make it contiguous.
    `.contiguous().long()` are the identity in this model (data is always
    materialised, values are kept as numbers).  The `view` raises when the
    buffer size does not match, hence the `Option`. -/
def label_to_long_tensor (pic : PILImage) : Option PyTensor :=
  (tview ⟨[pic.data.length], pic.data⟩ [pic.height, pic.width, 1]).map
    (fun t => tsqueeze (transpose02 (transpose01 t)))

/-- A directory entry as seen by `os.walk`: the lists of children record
    the order the OS returns from `os.listdir` (Python does not sort the
    file names). -/
inductive FSEntry where
  | file (name : PyStr) : FSEntry
  | dir (name : PyStr) (children : List FSEntry) : FSEntry

/-- The file names of a directory listing, in listing order. -/
def filesOf (es : List FSEntry) : List PyStr :=
  es.filterMap (fun e => match e with | .file n => some n | .dir _ _ => none)

/-- The `(dirpath, filenames)` pairs that `os.walk` yields for the strict
    subdirectories of a directory at path `p` with listing `es`, in
    `os.walk`'s top-down depth-first order. -/
def walkChildren (p : PyStr) : List FSEntry → List (PyStr × List PyStr)
  | [] => []
  | .file _ :: es => walkChildren p es
  | .dir n ch :: es =>
      ((pyJoin p n, filesOf ch) :: walkChildren (pyJoin p n) ch) ++ walkChildren p es

/-- Model of `os.walk(dir)` for a directory at path `p` with listing `es`: the
    directory itself first, then its subdirectories top-down. -/
def osWalk (p : PyStr) (es : List FSEntry) : List (PyStr × List PyStr) :=
  (p, filesOf es) :: walkChildren p es

/-- The image-file extension list of `torchvision.datasets.folder`
    (the external collaborator imported by the source). -/
def IMG_EXTENSIONS : List PyStr :=
  [".jpg".toList, ".JPG".toList, ".jpeg".toList, ".JPEG".toList,
   ".png".toList, ".PNG".toList, ".ppm".toList, ".PPM".toList,
   ".bmp".toList, ".BMP".toList]

/-- Model of `torchvision.datasets.folder.is_image_file`. -/
def is_image_file (fname : PyStr) : Bool :=
  IMG_EXTENSIONS.any (fun ext => ext.isSuffixOf fname)

/-- Lexicographic comparison of Python strings by code point
    (the order `sorted` uses on the walk triples, whose first and
    deciding component is the directory path). -/
def strLe : PyStr → PyStr → Bool
  | [], _ => true
  | _ :: _, [] => false
  | a :: as, b :: bs => if a < b then true else if b < a then false else strLe as bs

/-- Order on walk pairs: compare the directory paths (two distinct
    directories never share a path, so `sorted` never reaches the later
    tuple components). -/
def pathLe (x y : PyStr × List PyStr) : Prop := strLe x.1 y.1 = true

instance : DecidableRel pathLe := fun x y => instDecidableEqBool (strLe x.1 y.1) true

/-- Model of `sorted(os.walk(dir))`. -/
def sortedWalk (p : PyStr) (es : List FSEntry) : List (PyStr × List PyStr) :=
  List.insertionSort pathLe (osWalk p es)

/-- Model of `make_dataset(dir)`: for each walked directory in sorted order, append
    `os.path.join(root, fname)` for every image file, in listing order. -/
def make_dataset (p : PyStr) (es : List FSEntry) : List PyStr :=
  (sortedWalk p es).flatMap
    (fun pr => (pr.2.filter is_image_file).map (fun fname => pyJoin pr.1 fname))

/-- The number of files with a recognised image extension anywhere in a
    directory tree. -/
def countFiles : List FSEntry → ℕ
  | [] => 0
  | .file n :: es => (if is_image_file n then 1 else 0) + countFiles es
  | .dir _ ch :: es => countFiles ch + countFiles es

/-- The split synonym table `CamVid.SPLIT_NAME_MAPPING`. -/
def SPLIT_NAME_MAPPING : List (PyStr × PyStr) :=
  [("train".toList, "train".toList),
   ("training".toList, "train".toList),
   ("validate".toList, "val".toList),
   ("val".toList, "val".toList),
   ("validation".toList, "val".toList),
   ("test".toList, "test".toList),
   ("testing".toList, "test".toList)]

/-- The state a successfully constructed `CamVid` object holds. -/
structure CamVidState (Img : Type) where
  root_directory : PyStr
  split : PyStr
  image_transform : Option (Img → Img)
  label_transform : Option (Img → Img)
  joint_transform : Option (Img → Img → Img × Img)
  image_paths : List PyStr

/-- The errors `__getitem__` can raise: `IndexError` from the list
    indexing, `FileNotFoundError` from the loader / `Image.open`. -/
inductive PyErr where
  | indexError
  | notFound
deriving DecidableEq

/-- Model of `CamVid.__init__`: validate the split through `SPLIT_NAME_MAPPING`
    (`assert_` raises on an unknown split, modelled as `none`), store the
    normalised split and build `image_paths` with `make_dataset` on
    `os.path.join(root, split)`.  `tree` is the directory listing found at
    that joined path. -/
def camvidInit {Img : Type} (root split : PyStr) (tree : List FSEntry)
    (it lt : Option (Img → Img)) (jt : Option (Img → Img → Img × Img)) :
    Option (CamVidState Img) :=
  match SPLIT_NAME_MAPPING.lookup split with
  | none => none
  | some sp =>
    some { root_directory := root
           split := sp
           image_transform := it
           label_transform := lt
           joint_transform := jt
           image_paths := make_dataset (pyJoin root sp) tree }

/-- Python list subscripting with an integer index: non-negative indices
    address from the front, indices in `[-len, -1]` address from the back,
    anything else raises `IndexError` (`none`). -/
def pyListGet {α : Type} (l : List α) (i : ℤ) : Option α :=
  if 0 ≤ i then l[i.toNat]?
  else if 0 ≤ i + l.length then l[(i + l.length).toNat]?
  else none

/-- Model of `CamVid.__getitem__`: index into `image_paths`, load the image, open
    the label at `path.replace(split, split + 'annot')`, then apply the
    optional transforms.  `fs` is the filesystem: the decoded image a path
    resolves to, or `none` when opening it raises. -/
def CamVid_getitem {Img : Type} (fs : PyStr → Option Img)
    (st : CamVidState Img) (index : ℤ) : Except PyErr (Img × Img) :=
  match pyListGet st.image_paths index with
  | none => .error .indexError
  | some path =>
    match fs path with
    | none => .error .notFound
    | some image =>
      match fs (labelPath st.split path) with
      | none => .error .notFound
      | some label =>
        let image' := match st.image_transform with | some t => t image | none => image
        let label' := match st.label_transform with | some t => t label | none => label
        match st.joint_transform with
        | some t => .ok (t image' label')
        | none => .ok (image', label')

/-- Model of `CamVid.__len__`. -/
def CamVid_len {Img : Type} (st : CamVidState Img) : ℕ := st.image_paths.length

/-! ### Association-list lookup -/

theorem lookup_isSome_iff {α β : Type} [BEq α] [LawfulBEq α] (a : α) (l : List (α × β)) :
    (List.lookup a l).isSome ↔ a ∈ l.map Prod.fst := by
  induction l with
  | nil => simp [List.lookup]
  | cons x xs ih =>
    obtain ⟨k, v⟩ := x
    by_cases h : a = k
    · subst h; simp [List.lookup]
    · have hb : (a == k) = false := beq_false_of_ne h
      simp [List.lookup, hb, ih, h]

theorem lookup_mem_snd {α β : Type} [BEq α] [LawfulBEq α] {a : α} {b : β}
    {l : List (α × β)} (h : List.lookup a l = some b) : b ∈ l.map Prod.snd := by
  induction l with
  | nil => simp [List.lookup] at h
  | cons x xs ih =>
    obtain ⟨k, v⟩ := x
    by_cases hk : a = k
    · subst hk
      simp [List.lookup] at h
      simp [h]
    · have hb : (a == k) = false := beq_false_of_ne hk
      simp [List.lookup, hb] at h
      simp [ih h]

/-- C3: constructing a `CamVid` dataset succeeds exactly when the split
    string is one of the seven recognised synonyms (the keys of
    `SPLIT_NAME_MAPPING`), and on success the stored split is one of
    `train`, `val`, `test`; any other string makes the `assert_`
    validation fail. -/
theorem camvid_split_validation {Img : Type} (root split : PyStr) (tree : List FSEntry)
    (it lt : Option (Img → Img)) (jt : Option (Img → Img → Img × Img)) :
    ((camvidInit root split tree it lt jt).isSome ↔
      split ∈ SPLIT_NAME_MAPPING.map Prod.fst) ∧
    (∀ st, camvidInit root split tree it lt jt = some st →
      st.split ∈ ["train".toList, "val".toList, "test".toList]) := by
  constructor
  · rw [← lookup_isSome_iff]
    unfold camvidInit
    cases SPLIT_NAME_MAPPING.lookup split <;> simp
  · intro st h
    unfold camvidInit at h
    cases hl : SPLIT_NAME_MAPPING.lookup split with
    | none => rw [hl] at h; exact Option.noConfusion h
    | some sp =>
      rw [hl] at h
      have hsp : st.split = sp := by
        cases h; rfl
      have hm := lookup_mem_snd hl
      rw [hsp]
      simp only [SPLIT_NAME_MAPPING, List.map_cons, List.map_nil, List.mem_cons,
        List.not_mem_nil, or_false] at hm
      simp only [List.mem_cons, List.not_mem_nil, or_false]
      tauto

/-- Witness for C3 at the synonym `training` on an empty tree. -/
theorem camvid_split_validation_witness :
    (@camvidInit Unit "r".toList "training".toList [] none none none).isSome ∧
    (@CamVidState.mk Unit "r".toList "train".toList none none none []).split ∈
      ["train".toList, "val".toList, "test".toList] := by
  have h₀ : @camvidInit Unit "r".toList "training".toList [] none none none =
      some ⟨"r".toList, "train".toList, none, none, none, []⟩ := by
    have lk : SPLIT_NAME_MAPPING.lookup "training".toList = some "train".toList := by decide
    have md : make_dataset (pyJoin "r".toList "train".toList) [] = [] := by
      simp [make_dataset, sortedWalk, osWalk, walkChildren, filesOf, List.insertionSort]
    unfold camvidInit
    rw [lk]
    simp only [md]
  exact ⟨(camvid_split_validation "r".toList "training".toList [] none none none).1.mpr
            (by decide),
         (@camvid_split_validation Unit "r".toList "training".toList []
            none none none).2 _ h₀⟩

/-! ### `__getitem__`: index and file errors -/

theorem pyListGet_eq_none_iff {α : Type} (l : List α) (i : ℤ) :
    pyListGet l i = none ↔ i < -(l.length : ℤ) ∨ (l.length : ℤ) ≤ i := by
  unfold pyListGet
  split_ifs with h1 h2
  · rw [List.getElem?_eq_none_iff]
    omega
  · rw [List.getElem?_eq_none_iff]
    omega
  · simp
    omega

theorem getitem_some_not_indexError {Img : Type} (fs : PyStr → Option Img)
    (st : CamVidState Img) (i : ℤ) (path : PyStr)
    (h : pyListGet st.image_paths i = some path) :
    CamVid_getitem fs st i ≠ .error .indexError := by
  intro he
  simp only [CamVid_getitem, h] at he
  cases hf : fs path with
  | none =>
    simp only [hf] at he
    exact PyErr.noConfusion (Except.error.inj he)
  | some img =>
    simp only [hf] at he
    cases hl : fs (labelPath st.split path) with
    | none =>
      simp only [hl] at he
      exact PyErr.noConfusion (Except.error.inj he)
    | some lbl =>
      simp only [hl] at he
      cases hj : st.joint_transform with
      | none => simp only [hj] at he; exact Except.noConfusion he
      | some t => simp only [hj] at he; exact Except.noConfusion he

/-- C9 (amended): `get(index)` raises `IndexError` exactly when the
    integer index is outside `[-length(), length())`; Python's negative
    indexing makes indices in `[-length(), -1]` valid accesses from the
    end, so the failure region is not the complement of `[0, length())`. -/
theorem getitem_indexError_iff {Img : Type} (fs : PyStr → Option Img)
    (st : CamVidState Img) (i : ℤ) :
    CamVid_getitem fs st i = .error .indexError ↔
      (i < -(st.image_paths.length : ℤ) ∨ (st.image_paths.length : ℤ) ≤ i) := by
  cases h : pyListGet st.image_paths i with
  | none =>
    have hr := (pyListGet_eq_none_iff st.image_paths i).mp h
    unfold CamVid_getitem
    rw [h]
    simpa using hr
  | some path =>
    constructor
    · intro he
      exact absurd he (getitem_some_not_indexError fs st i path h)
    · intro hc
      rw [(pyListGet_eq_none_iff st.image_paths i).mpr hc] at h
      exact Option.noConfusion h

/-- Counterexample for C9 as stated: on a one-element dataset, the index
    `-1` lies outside `[0, length())` yet `get(-1)` succeeds (Python
    lists index from the back), so "IndexError iff outside
    `[0, length())`" is false. -/
theorem getitem_indexError_counterexample :
    @CamVid_getitem ℕ (fun _ => some 7)
      ⟨"r".toList, "train".toList, none, none, none, ["p".toList]⟩ (-1) = .ok (7, 7) ∧
    (-1 : ℤ) < 0 := by
  exact ⟨rfl, by decide⟩

/-- C4: for a valid index whose image file is present, `get` either
    returns the image together with its paired label (when the label file
    resolves) or fails with a NotFound error (when opening the label
    raises); there is no partial result.  Transforms are at their `None`
    defaults. -/
theorem getitem_pair_or_notFound {Img : Type} (fs : PyStr → Option Img)
    (root sp : PyStr) (paths : List PyStr) (i : ℤ) (path : PyStr) (img : Img)
    (hp : pyListGet paths i = some path)
    (hi : fs path = some img) :
    (∀ lbl, fs (labelPath sp path) = some lbl →
      CamVid_getitem fs ⟨root, sp, none, none, none, paths⟩ i = .ok (img, lbl)) ∧
    (fs (labelPath sp path) = none →
      CamVid_getitem fs ⟨root, sp, none, none, none, paths⟩ i = .error .notFound) := by
  constructor
  · intro lbl hl
    simp only [CamVid_getitem, hp, hi, hl]
  · intro hl
    simp only [CamVid_getitem, hp, hi, hl]

/-- Witness for C4: with `root/train/a.png` present and its label at
    `root/trainannot/a.png`, `get(0)` returns both. -/
theorem getitem_pair_or_notFound_witness :
    @CamVid_getitem ℕ
      (fun p => if p = "r/train/a.png".toList then some 1
                else if p = "r/trainannot/a.png".toList then some 2 else none)
      ⟨"r".toList, "train".toList, none, none, none, ["r/train/a.png".toList]⟩ 0 =
      .ok (1, 2) := by
  exact (getitem_pair_or_notFound
      (fun p => if p = "r/train/a.png".toList then some 1
                else if p = "r/trainannot/a.png".toList then some 2 else none)
      "r".toList "train".toList ["r/train/a.png".toList] 0 "r/train/a.png".toList 1
      (by decide) (by decide)).1 2 (by decide)

/-! ### The decode path `label_to_long_tensor` -/

theorem getElem?_range_map {α : Type} (M : ℕ) (f : ℕ → α) (n : ℕ) :
    ((List.range M).map f)[n]? = if n < M then some (f n) else none := by
  by_cases h : n < M
  · rw [List.getElem?_map, List.getElem?_range h]
    simp [h]
  · rw [List.getElem?_eq_none_iff.mpr (by simp [List.length_range]; omega)]
    simp [h]

theorem getD_range_map (M : ℕ) (f : ℕ → ℕ) (n : ℕ) (h : n < M) :
    ((List.range M).map f).getD n 0 = f n := by
  rw [List.getD_eq_getElem?_getD, getElem?_range_map]
  simp [h]

theorem transpose_roundtrip_data (w h : ℕ) (bytes : List ℕ)
    (hlen : bytes.length = h * w) :
    transpose02 (transpose01 ⟨[h, w, 1], bytes⟩) = ⟨[1, h, w], bytes⟩ := by
  have t1 : transpose01 ⟨[h, w, 1], bytes⟩ =
      ⟨[w, h, 1], (List.range (w * h)).map (fun m => bytes.getD (m % h * w + m / h) 0)⟩ := by
    simp only [transpose01, mul_one, Nat.div_one, Nat.mod_one, add_zero]
  rw [t1]
  have t2 : transpose02
      (⟨[w, h, 1],
        (List.range (w * h)).map (fun m => bytes.getD (m % h * w + m / h) 0)⟩ : PyTensor) =
      ⟨[1, h, w], (List.range (h * w)).map (fun n =>
        ((List.range (w * h)).map (fun m => bytes.getD (m % h * w + m / h) 0)).getD
          (n % w * h + n % (h * w) / w + n / (h * w)) 0)⟩ := by
    simp only [transpose02, mul_one, one_mul, Nat.div_one, Nat.mod_one, add_zero]
  rw [t2]
  congr 1
  apply List.ext_getElem?
  intro n
  rw [getElem?_range_map]
  by_cases hn : n < h * w
  · have hw0 : 0 < w := by
      rcases Nat.eq_zero_or_pos w with h0 | h0
      · subst h0; simp at hn
      · exact h0
    have hh0 : 0 < h := by
      rcases Nat.eq_zero_or_pos h with h0 | h0
      · subst h0; simp at hn
      · exact h0
    rw [if_pos hn]
    rw [Nat.mod_eq_of_lt hn, Nat.div_eq_of_lt hn, Nat.add_zero]
    have hdiv : n / w < h := Nat.div_lt_of_lt_mul (by rw [Nat.mul_comm] at hn; exact hn)
    have hmod : n % w < w := Nat.mod_lt _ hw0
    have hmlt : n % w * h + n / w < w * h := by
      calc n % w * h + n / w < n % w * h + h := by omega
        _ = (n % w + 1) * h := by ring
        _ ≤ w * h := Nat.mul_le_mul_right _ (by omega)
    rw [getD_range_map _ _ _ hmlt]
    have e4 : (n % w * h + n / w) % h = n / w := by
      rw [Nat.mul_comm (n % w) h, Nat.mul_add_mod, Nat.mod_eq_of_lt hdiv]
    have e5 : (n % w * h + n / w) / h = n % w := by
      rw [Nat.mul_comm (n % w) h, Nat.mul_add_div hh0, Nat.div_eq_of_lt hdiv, Nat.add_zero]
    rw [e4, e5]
    have e8 : n / w * w + n % w = n := by
      rw [Nat.mul_comm]
      exact Nat.div_add_mod n w
    rw [e8, List.getD_eq_getElem?_getD]
    cases hb : bytes[n]? with
    | none =>
      rw [List.getElem?_eq_none_iff] at hb
      omega
    | some v => simp
  · rw [if_neg hn, eq_comm, List.getElem?_eq_none_iff]
    omega

/-- C6 (amended): for a single-channel image whose byte buffer matches
    its size and whose width and height both differ from 1,
    `label_to_long_tensor` returns a 2-D tensor of shape `(h, w)` whose
    row-major data is exactly the raw byte buffer, i.e. entry `(r, c)` is
    the byte of the pixel at row `r`, column `c`, with no colour lookup.
    When a dimension equals 1, `squeeze()` also removes it and the result
    has lower rank, so the original claim fails there. -/
theorem label_to_long_tensor_spec (w h : ℕ) (bytes : List ℕ)
    (hlen : bytes.length = h * w) (hh : h ≠ 1) (hw : w ≠ 1) :
    label_to_long_tensor ⟨w, h, bytes⟩ = some ⟨[h, w], bytes⟩ := by
  unfold label_to_long_tensor
  have hv : tview ⟨[bytes.length], bytes⟩ [h, w, 1] = some ⟨[h, w, 1], bytes⟩ := by
    unfold tview
    rw [if_pos (by simp [hlen])]
  rw [hv, Option.map_some', transpose_roundtrip_data w h bytes hlen]
  unfold tsqueeze
  simp only [PyTensor.mk.injEq, and_true]
  simp [List.filter, hh, hw]

/-- Witness for C6 (amended) on a 2×2 buffer. -/
theorem label_to_long_tensor_spec_witness :
    label_to_long_tensor ⟨2, 2, [10, 20, 30, 40]⟩ = some ⟨[2, 2], [10, 20, 30, 40]⟩ :=
  label_to_long_tensor_spec 2 2 [10, 20, 30, 40] (by decide) (by decide) (by decide)

/-- Counterexample for C6 as stated: a single-channel image of width 1
    and height 2 decodes to a 1-D tensor of shape `(2)`, not a 2-D array
    of shape `(2, 1)`, because `squeeze()` removes every singleton
    dimension. -/
theorem label_to_long_tensor_counterexample :
    (label_to_long_tensor ⟨1, 2, [5, 6]⟩).map PyTensor.shape = some [2] ∧
    some [2] ≠ some ([2, 1] : List ℕ) := by
  constructor
  · rfl
  · decide

/-! ### The encode path `label_to_pil_image` -/

theorem paintPixel_in_range (v : ℤ) (h0 : 0 ≤ v) (h12 : v < 12) :
    CAMVID_CLASS_COLORS[v.toNat]? = some (paintPixel v) := by
  interval_cases v <;> decide

theorem foldl_paint_skip (v : ℤ) (l : List (ℕ × (ℕ × ℕ × ℕ))) (a : ℕ × ℕ × ℕ)
    (h : ∀ ic ∈ l, v ≠ (ic.1 : ℤ)) :
    l.foldl (fun acc ic => if v = (ic.1 : ℤ) then ic.2 else acc) a = a := by
  induction l generalizing a with
  | nil => rfl
  | cons x xs ih =>
    rw [List.foldl_cons, if_neg (h x (by simp))]
    exact ih a (fun y hy => h y (by simp [hy]))

theorem paintPixel_out_of_range (v : ℤ) (h : v < 0 ∨ 11 < v) :
    paintPixel v = (0, 0, 0) := by
  have he : CAMVID_CLASS_COLORS.enum =
      [(0, (128, 128, 128)), (1, (128, 0, 0)), (2, (192, 192, 128)),
       (3, (128, 64, 128)), (4, (0, 0, 192)), (5, (128, 128, 0)),
       (6, (192, 128, 128)), (7, (64, 64, 128)), (8, (64, 0, 128)),
       (9, (64, 64, 0)), (10, (0, 128, 192)), (11, (0, 0, 0))] := by decide
  unfold paintPixel
  rw [he]
  apply foldl_paint_skip
  intro ic hic
  fin_cases hic <;> (rcases h with h | h <;> intro hcontra <;> omega)

theorem getElem?_flatMap_uniform {α β : Type} (f : α → List β) (k : ℕ)
    (l : List α) (hk : ∀ x ∈ l, (f x).length = k) (i j : ℕ) (hj : j < k) :
    (l.flatMap f)[i * k + j]? = l[i]?.bind (fun x => (f x)[j]?) := by
  induction l generalizing i with
  | nil => simp
  | cons x xs ih =>
    cases i with
    | zero =>
      rw [List.flatMap_cons, List.getElem?_append_left]
      · simp
      · rw [hk x (by simp)]
        omega
    | succ i' =>
      rw [List.flatMap_cons, List.getElem?_append_right]
      · have harith : (i' + 1) * k + j - (f x).length = i' * k + j := by
          rw [hk x (by simp)]
          ring_nf
          omega
        rw [harith, ih (fun y hy => hk y (by simp [hy]))]
        simp
      · rw [hk x (by simp)]
        have : k ≤ (i' + 1) * k := by
          calc k = 1 * k := (one_mul k).symm
            _ ≤ (i' + 1) * k := Nat.mul_le_mul_right _ (by omega)
        omega

theorem length_flatMap_mem {α β : Type} (F : α → List β) (k : ℕ) (l : List α)
    (h : ∀ x ∈ l, (F x).length = k) : (l.flatMap F).length = l.length * k := by
  induction l with
  | nil => simp
  | cons x xs ih =>
    rw [List.flatMap_cons, List.length_append, h x (by simp),
      ih (fun y hy => h y (by simp [hy]))]
    simp only [List.length_cons]
    ring

theorem label_image_byte (label : List (List ℤ)) (w : ℕ)
    (hw : ∀ row ∈ label, row.length = w)
    (r c : ℕ) (row : List ℤ) (v : ℤ)
    (hr : label[r]? = some row) (hc : row[c]? = some v) (j : ℕ) (hj : j < 3) :
    (label_to_pil_image label).data[3 * (r * w + c) + j]? =
      (pixelBytes (paintPixel v))[j]? := by
  show (label.flatMap (fun rw => rw.flatMap (fun u => pixelBytes (paintPixel u))))[3 * (r * w + c) + j]? = _
  have hU : ∀ x ∈ label, (x.flatMap (fun u => pixelBytes (paintPixel u))).length = 3 * w := by
    intro x hx
    rw [length_flatMap_mem _ 3 x (fun u _ => by simp [pixelBytes]), hw x hx]
    ring
  have idx : 3 * (r * w + c) + j = r * (3 * w) + (3 * c + j) := by ring
  rw [idx, getElem?_flatMap_uniform _ (3 * w) label hU r (3 * c + j) (by
    have hrm : row ∈ label := List.get?_mem (by rw [List.get?_eq_getElem?]; exact hr)
    have hcw : c < w := by
      by_contra hcc
      rw [List.getElem?_eq_none_iff.mpr (by
        rw [hw row hrm]
        omega)] at hc
      exact Option.noConfusion hc
    omega)]
  rw [hr]
  simp only [Option.some_bind]
  have idx2 : 3 * c + j = c * 3 + j := by ring
  rw [idx2, getElem?_flatMap_uniform _ 3 row (fun u _ => by simp [pixelBytes]) c j hj]
  rw [hc]
  simp only [Option.some_bind]

theorem label_image_pixel (label : List (List ℤ)) (w : ℕ)
    (hw : ∀ row ∈ label, row.length = w)
    (r c : ℕ) (row : List ℤ) (v : ℤ)
    (hr : label[r]? = some row) (hc : row[c]? = some v) :
    pilPixel (label_to_pil_image label) r c = some (paintPixel v) := by
  have hwidth : (label_to_pil_image label).width = w := by
    cases label with
    | nil => exact Option.noConfusion hr
    | cons y ys =>
      show (List.headD (y :: ys) []).length = w
      rw [List.headD_cons]
      exact hw y (by simp)
  have hd0 : (label_to_pil_image label).data[3 * (r * w + c)]? = some (paintPixel v).1 := by
    have h := label_image_byte label w hw r c row v hr hc 0 (by omega)
    rw [Nat.add_zero] at h
    rw [h]
    simp [pixelBytes]
  have hd1 : (label_to_pil_image label).data[3 * (r * w + c) + 1]? =
      some (paintPixel v).2.1 := by
    rw [label_image_byte label w hw r c row v hr hc 1 (by omega)]
    simp [pixelBytes]
  have hd2 : (label_to_pil_image label).data[3 * (r * w + c) + 2]? =
      some (paintPixel v).2.2 := by
    rw [label_image_byte label w hw r c row v hr hc 2 (by omega)]
    simp [pixelBytes]
  unfold pilPixel
  rw [hwidth, hd0, hd1, hd2]

/-- C5: for a 2-D class-index map whose entries lie in `0..11`,
    `label_to_pil_image` produces an RGB image in which the pixel at row
    `r`, column `c` carries exactly the palette colour
    `CAMVID_CLASS_COLORS[v]` of the class index `v` stored there. -/
theorem label_to_pil_image_paints_palette (label : List (List ℤ)) (w : ℕ)
    (hw : ∀ row ∈ label, row.length = w)
    (r c : ℕ) (row : List ℤ) (v : ℤ) (col : ℕ × ℕ × ℕ)
    (hr : label[r]? = some row) (hc : row[c]? = some v)
    (h0 : 0 ≤ v) (h12 : v < 12)
    (hcol : CAMVID_CLASS_COLORS[v.toNat]? = some col) :
    pilPixel (label_to_pil_image label) r c = some col := by
  have hcv : paintPixel v = col := by
    have h := paintPixel_in_range v h0 h12
    rw [hcol] at h
    exact (Option.some.inj h).symm
  rw [label_image_pixel label w hw r c row v hr hc, hcv]

/-- Witness for C5: the spec's concrete scenario, an all-zero `(2, 2)`
    index map encodes to an image whose pixel `(0, 0)` is the Sky colour
    `(128, 128, 128)`. -/
theorem label_to_pil_image_paints_palette_witness :
    pilPixel (label_to_pil_image [[0, 0], [0, 0]]) 0 0 = some (128, 128, 128) :=
  label_to_pil_image_paints_palette [[0, 0], [0, 0]] 2 (by decide) 0 0 [0, 0] 0
    (128, 128, 128) rfl rfl (by decide) (by decide) rfl

/-- C10: `label_to_pil_image` is total also on maps with out-of-range
    entries (the painting loop raises nothing); a pixel whose index is
    outside `0..11` keeps the initial colour `(0, 0, 0)`, which is
    exactly the palette colour of class 11 (`Void`), so such pixels are
    indistinguishable from `Void` pixels in the encoded image. -/
theorem label_to_pil_image_out_of_range (label : List (List ℤ)) (w : ℕ)
    (hw : ∀ row ∈ label, row.length = w)
    (r c : ℕ) (row : List ℤ) (v : ℤ)
    (hr : label[r]? = some row) (hc : row[c]? = some v)
    (hv : v < 0 ∨ 11 < v) :
    pilPixel (label_to_pil_image label) r c = some (0, 0, 0) ∧
    CAMVID_CLASS_COLORS[11]? = some (0, 0, 0) := by
  constructor
  · rw [label_image_pixel label w hw r c row v hr hc, paintPixel_out_of_range v hv]
  · rfl

/-- Witness for C10 at the out-of-range index 12. -/
theorem label_to_pil_image_out_of_range_witness :
    pilPixel (label_to_pil_image [[12]]) 0 0 = some (0, 0, 0) ∧
    CAMVID_CLASS_COLORS[11]? = some (0, 0, 0) :=
  label_to_pil_image_out_of_range [[12]] 1 (by decide) 0 0 [12] 12 rfl rfl
    (by decide)

/-! ### The round trip (C1) -/

/-- C1 (amended): encoding a non-empty rectangular class-index map with
    `label_to_pil_image` and then decoding with `label_to_long_tensor`
    does not recover the map: it fails altogether, because the encoded
    image carries `3·h·w` bytes (RGB) while the decoder's
    `view(h, w, 1)` requires exactly `h·w`, so the view raises.  (No
    colour lookup exists in `label_to_long_tensor`, so the indices could
    not be recovered from the RGB bytes anyway.) -/
theorem roundtrip_fails (label : List (List ℤ)) (w : ℕ)
    (hw : ∀ row ∈ label, row.length = w)
    (hl : 0 < label.length) (hw0 : 0 < w) :
    label_to_long_tensor (label_to_pil_image label) = none := by
  have hlen : (label_to_pil_image label).data.length = label.length * (3 * w) := by
    show (label.flatMap (fun rw => rw.flatMap (fun u => pixelBytes (paintPixel u)))).length = _
    refine length_flatMap_mem _ (3 * w) label ?_
    intro x hx
    rw [length_flatMap_mem _ 3 x (fun u _ => by simp [pixelBytes]), hw x hx]
    ring
  have hh : (label_to_pil_image label).height = label.length := rfl
  have hwidth : (label_to_pil_image label).width = w := by
    cases label with
    | nil => simp at hl
    | cons y ys =>
      show (List.headD (y :: ys) []).length = w
      rw [List.headD_cons]
      exact hw y (by simp)
  unfold label_to_long_tensor
  have hcond : ¬ ([(label_to_pil_image label).height,
      (label_to_pil_image label).width, 1].prod =
      (⟨[(label_to_pil_image label).data.length],
        (label_to_pil_image label).data⟩ : PyTensor).data.length) := by
    show ¬ ([(label_to_pil_image label).height,
      (label_to_pil_image label).width, 1].prod = (label_to_pil_image label).data.length)
    rw [hh, hwidth, hlen]
    simp only [List.prod_cons, List.prod_nil, mul_one]
    intro hcontra
    have hlt : label.length * w < label.length * (3 * w) :=
      mul_lt_mul_of_pos_left (by omega) hl
    omega
  unfold tview
  rw [if_neg hcond]
  rfl

/-- Witness for C1 (amended) on a 1×2 map. -/
theorem roundtrip_fails_witness :
    label_to_long_tensor (label_to_pil_image [[1], [2]]) = none :=
  roundtrip_fails [[1], [2]] 1 (by decide) (by decide) (by decide)

/-- Counterexample for C1 as stated: encoding the all-zero `(2, 2)` map
    and decoding the result yields `none` (the decoder's `view` rejects
    the 12-byte RGB buffer), not the original index map. -/
theorem roundtrip_counterexample :
    label_to_long_tensor (label_to_pil_image [[0, 0], [0, 0]]) = none ∧
    (none : Option PyTensor) ≠ some ⟨[2, 2], [0, 0, 0, 0]⟩ := by
  exact ⟨rfl, by decide⟩

/-! ### The indexer `make_dataset` -/

theorem strLe_total (a : PyStr) : ∀ b : PyStr, strLe a b = true ∨ strLe b a = true := by
  induction a with
  | nil => intro b; left; rfl
  | cons x as ih =>
    intro b
    cases b with
    | nil => right; rfl
    | cons y bs =>
      by_cases hxy : x < y
      · left; simp [strLe, hxy]
      · by_cases hyx : y < x
        · right; simp [strLe, hyx]
        · rcases ih bs with h | h
          · left; simp [strLe, hxy, hyx, h]
          · right; simp [strLe, hyx, hxy, h]

theorem strLe_trans (a : PyStr) : ∀ b c : PyStr,
    strLe a b = true → strLe b c = true → strLe a c = true := by
  induction a with
  | nil => intro b c _ _; rfl
  | cons x as ih =>
    intro b c hab hbc
    cases b with
    | nil => simp [strLe] at hab
    | cons y bs =>
      cases c with
      | nil => simp [strLe] at hbc
      | cons z cs =>
        rcases lt_trichotomy x y with h1 | h1 | h1
        · rcases lt_trichotomy y z with h2 | h2 | h2
          · simp [strLe, lt_trans h1 h2]
          · subst h2; simp [strLe, h1]
          · simp [strLe, asymm h2, h2] at hbc
        · subst h1
          rcases lt_trichotomy x z with h2 | h2 | h2
          · simp [strLe, h2]
          · subst h2
            simp only [strLe, lt_irrefl, if_false] at hab hbc ⊢
            exact ih bs cs hab hbc
          · simp [strLe, asymm h2, h2] at hbc
        · simp [strLe, asymm h1, h1] at hab

instance : IsTotal (PyStr × List PyStr) pathLe :=
  ⟨fun a b => strLe_total a.1 b.1⟩

instance : IsTrans (PyStr × List PyStr) pathLe :=
  ⟨fun a b c hab hbc => strLe_trans a.1 b.1 c.1 hab hbc⟩

theorem filesOf_cons_file (n : PyStr) (es : List FSEntry) :
    filesOf (.file n :: es) = n :: filesOf es := rfl

theorem filesOf_cons_dir (n : PyStr) (ch es : List FSEntry) :
    filesOf (.dir n ch :: es) = filesOf es := rfl

theorem walkChildren_sum (p : PyStr) (es : List FSEntry) :
    ((walkChildren p es).map (fun pr => (pr.2.filter is_image_file).length)).sum +
      ((filesOf es).filter is_image_file).length = countFiles es := by
  induction p, es using walkChildren.induct with
  | case1 p => simp [walkChildren, filesOf, countFiles]
  | case2 p n es ih =>
    simp only [walkChildren, filesOf_cons_file, countFiles, List.filter_cons]
    cases hn : is_image_file n with
    | true =>
      simp only [hn, if_true, List.length_cons]
      omega
    | false =>
      simp only [hn, Bool.false_eq_true, if_false]
      omega
  | case3 p n ch es ih1 ih2 =>
    simp only [walkChildren, filesOf_cons_dir, countFiles, List.map_append,
      List.map_cons, List.sum_append, List.sum_cons]
    omega

theorem make_dataset_length (p : PyStr) (es : List FSEntry) :
    (make_dataset p es).length = countFiles es := by
  unfold make_dataset sortedWalk
  rw [List.length_flatMap]
  have hperm : (List.insertionSort pathLe (osWalk p es)).Perm (osWalk p es) :=
    List.perm_insertionSort pathLe _
  rw [(hperm.map _).sum_eq]
  simp only [osWalk, List.map_cons, List.sum_cons, Function.comp_def, List.length_map]
  have h := walkChildren_sum p es
  omega

/-- C7: the dataset length equals the number of files with a recognised
    image extension found recursively under `root/<split>/`; in
    particular an empty directory gives length 0 and no error. -/
theorem camvid_length_counts {Img : Type} (root split : PyStr) (tree : List FSEntry)
    (it lt : Option (Img → Img)) (jt : Option (Img → Img → Img × Img))
    (st : CamVidState Img)
    (h : camvidInit root split tree it lt jt = some st) :
    CamVid_len st = countFiles tree := by
  unfold camvidInit at h
  cases hl : SPLIT_NAME_MAPPING.lookup split with
  | none => rw [hl] at h; exact Option.noConfusion h
  | some sp =>
    rw [hl] at h
    have hp : st.image_paths = make_dataset (pyJoin root sp) tree := by
      cases h; rfl
    unfold CamVid_len
    rw [hp, make_dataset_length]

/-- Witness for C7 on an empty split directory: length 0. -/
theorem camvid_length_counts_witness :
    CamVid_len (@CamVidState.mk Unit "r".toList "train".toList none none none []) =
      countFiles ([] : List FSEntry) := by
  have h₀ : @camvidInit Unit "r".toList "train".toList [] none none none =
      some ⟨"r".toList, "train".toList, none, none, none, []⟩ := by
    have lk : SPLIT_NAME_MAPPING.lookup "train".toList = some "train".toList := by decide
    have md : make_dataset (pyJoin "r".toList "train".toList) [] = [] := by
      simp [make_dataset, sortedWalk, osWalk, walkChildren, filesOf, List.insertionSort]
    unfold camvidInit
    rw [lk]
    simp only [md]
  exact camvid_length_counts "r".toList "train".toList [] none none none _ h₀

/-- C8 (amended): the indexed list is grouped by directory, the walked
    directories are arranged in lexicographically non-decreasing path
    order (`sorted(os.walk(dir))` sorts the triples by their first,
    deciding component), and sorting only permutes the walk.  File names
    inside one directory stay in the OS listing order: the code never
    sorts `fnames`, so the list is not sorted by filename within a
    directory. -/
theorem sortedWalk_sorted_by_path (p : PyStr) (es : List FSEntry) :
    List.Sorted pathLe (sortedWalk p es) ∧
    (sortedWalk p es).Perm (osWalk p es) :=
  ⟨List.sorted_insertionSort pathLe (osWalk p es),
   List.perm_insertionSort pathLe (osWalk p es)⟩

/-- Counterexample for C8 as stated: a directory whose OS listing order
    is `b.png`, `a.png` indexes to `r/b.png`, `r/a.png` — not sorted by
    filename within the directory. -/
theorem make_dataset_not_filename_sorted :
    make_dataset "r".toList [.file "b.png".toList, .file "a.png".toList] =
      ["r/b.png".toList, "r/a.png".toList] ∧
    ["r/b.png".toList, "r/a.png".toList] ≠ ["r/a.png".toList, "r/b.png".toList] := by
  constructor
  · have h1 : osWalk "r".toList [.file "b.png".toList, .file "a.png".toList] =
        [("r".toList, ["b.png".toList, "a.png".toList])] := by
      simp [osWalk, walkChildren, filesOf]
    unfold make_dataset sortedWalk
    rw [h1]
    decide
  · decide

/-! ### The label path (C2): `str.replace` replaces every occurrence -/

theorem isPrefixOf_true_iff {l₁ l₂ : PyStr} : l₁.isPrefixOf l₂ = true ↔ l₁ <+: l₂ :=
  List.isPrefixOf_iff_prefix

theorem pyReplaceAux_no_occurrence (old nw : PyStr) (s : PyStr) (fuel : ℕ)
    (hs : s.length ≤ fuel) (h : ¬ old <:+: s) :
    pyReplaceAux old nw fuel s = s := by
  induction s generalizing fuel with
  | nil => cases fuel <;> rfl
  | cons c rest ih =>
    cases fuel with
    | zero => simp [List.length_cons] at hs
    | succ f =>
      simp only [pyReplaceAux]
      have hnp : ¬ (old.isPrefixOf (c :: rest) = true ∧ old ≠ []) := by
        rintro ⟨hp, -⟩
        exact h (isPrefixOf_true_iff.mp hp).isInfix
      rw [if_neg hnp]
      have hrest : ¬ old <:+: rest := by
        rintro ⟨s', t', hst⟩
        exact h ⟨c :: s', t', by rw [← hst]; rfl⟩
      rw [ih f (by simp [List.length_cons] at hs; omega) hrest]

theorem pyReplaceAux_append_no_match (old nw : PyStr) (t u : PyStr) (fuel : ℕ)
    (hfuel : t.length + u.length ≤ fuel)
    (H : ∀ i, i < t.length → ¬ old <+: (t.drop i ++ u)) :
    pyReplaceAux old nw fuel (t ++ u) = t ++ pyReplaceAux old nw (fuel - t.length) u := by
  induction t generalizing fuel with
  | nil => simp
  | cons c t' ih =>
    cases fuel with
    | zero => simp [List.length_cons] at hfuel
    | succ f =>
      have hcons : (c :: t') ++ u = c :: (t' ++ u) := rfl
      rw [hcons]
      simp only [pyReplaceAux]
      have hnp : ¬ (old.isPrefixOf (c :: (t' ++ u)) = true ∧ old ≠ []) := by
        rintro ⟨hp, -⟩
        exact H 0 (by simp) (by simpa using isPrefixOf_true_iff.mp hp)
      rw [if_neg hnp]
      rw [ih f (by simp [List.length_cons] at hfuel; omega) (fun i hi => by
        have hHi := H (i + 1) (by simp [List.length_cons]; omega)
        simpa using hHi)]
      simp [List.length_cons, Nat.succ_sub_succ]

theorem prefix_append_short {p xs ys : PyStr} (h : p <+: xs ++ ys)
    (hlen : p.length ≤ xs.length) : p <+: xs :=
  List.prefix_of_prefix_length_le h (List.prefix_append _ _) hlen

theorem prefix_long_mem {p xs : PyStr} {y : Char} {ys : PyStr}
    (h : p <+: xs ++ y :: ys) (hlen : xs.length < p.length) : y ∈ p := by
  have h1 : xs ++ [y] <+: xs ++ y :: ys := ⟨ys, by simp⟩
  have h2 : xs ++ [y] <+: p :=
    List.prefix_of_prefix_length_le h1 h (by simp [List.length_append]; omega)
  exact h2.subset (by simp)

theorem infix_of_prefix_drop {p root : PyStr} {i : ℕ} (h : p <+: root.drop i) :
    p <:+: root := by
  obtain ⟨t, ht⟩ := h
  exact ⟨root.take i, t, by rw [List.append_assoc, ht, List.take_append_drop]⟩

theorem no_match_in_root (split root u : PyStr)
    (hslash : '/' ∉ split) (hroot : ¬ split <:+: root) :
    ∀ i, i < (root ++ ['/']).length → ¬ split <+: ((root ++ ['/']).drop i ++ u) := by
  intro i hi hp
  have hlen : i ≤ root.length := by simp [List.length_append] at hi; omega
  rw [List.drop_append_of_le_length hlen, List.append_assoc] at hp
  by_cases hcase : split.length ≤ (root.drop i).length
  · exact hroot (infix_of_prefix_drop (prefix_append_short hp hcase))
  · exact hslash (prefix_long_mem hp (by omega))

theorem not_infix_slash_cons (split rel : PyStr) (hne : split ≠ [])
    (hslash : '/' ∉ split) (hrel : ¬ split <:+: rel) : ¬ split <:+: ('/' :: rel) := by
  rintro ⟨s, t, hst⟩
  cases s with
  | nil =>
    cases split with
    | nil => exact hne rfl
    | cons a as =>
      rw [List.nil_append, List.cons_append] at hst
      have h1 : a = '/' := (List.cons.inj hst).1
      exact hslash (h1 ▸ List.mem_cons_self a as)
  | cons c s' =>
    rw [List.cons_append, List.cons_append] at hst
    exact hrel ⟨s', t, (List.cons.inj hst).2⟩

theorem pyReplaceAux_fires (a : Char) (as nw rel : PyStr) (fuel : ℕ)
    (hfuel : as.length + rel.length + 1 ≤ fuel)
    (hslash : '/' ∉ (a :: as)) (hrel : ¬ (a :: as) <:+: rel) :
    pyReplaceAux (a :: as) nw (fuel + 1) ((a :: as) ++ '/' :: rel) = nw ++ '/' :: rel := by
  have hcons : (a :: as) ++ '/' :: rel = a :: (as ++ '/' :: rel) := rfl
  rw [hcons]
  simp only [pyReplaceAux]
  rw [if_pos ⟨isPrefixOf_true_iff.mpr ⟨'/' :: rel, rfl⟩, List.cons_ne_nil a as⟩]
  have hdrop : (a :: (as ++ '/' :: rel)).drop (a :: as).length = '/' :: rel := by
    show (a :: (as ++ '/' :: rel)).drop (as.length + 1) = '/' :: rel
    rw [List.drop_succ_cons, List.drop_left]
  rw [hdrop]
  rw [pyReplaceAux_no_occurrence _ _ _ fuel (by simp [List.length_cons]; omega)
    (not_infix_slash_cons (a :: as) rel (List.cons_ne_nil a as) hslash hrel)]

/-- C2 (amended): the label path `get(i)` opens is the image path with
    EVERY occurrence of the split string replaced by `<split>annot`
    (Python `str.replace` replaces all occurrences); when the split
    string occurs in the path only as the split directory segment — i.e.
    it is not a substring of the root directory nor of the file's
    relative name — this coincides with replacing just that segment. -/
theorem labelPath_replaces_split_segment (root split rel : PyStr)
    (hne : split ≠ []) (hslash : '/' ∉ split)
    (hroot : ¬ split <:+: root) (hrel : ¬ split <:+: rel) :
    labelPath split (pyJoin (pyJoin root split) rel) =
      pyJoin (pyJoin root (split ++ "annot".toList)) rel := by
  have hpath : pyJoin (pyJoin root split) rel = (root ++ ['/']) ++ (split ++ '/' :: rel) := by
    simp [pyJoin]
  unfold labelPath pyReplace
  rw [hpath]
  have hlen : ((root ++ ['/']) ++ (split ++ '/' :: rel)).length =
      (root ++ ['/']).length + (split ++ '/' :: rel).length := by
    simp [List.length_append]
    omega
  rw [hlen, pyReplaceAux_append_no_match _ _ _ _ _ (le_refl _)
    (no_match_in_root split root (split ++ '/' :: rel) hslash hroot)]
  rw [Nat.add_sub_cancel_left]
  obtain ⟨a, as, rfl⟩ : ∃ a as, split = a :: as := by
    cases split with
    | nil => exact absurd rfl hne
    | cons a as => exact ⟨a, as, rfl⟩
  have hulen : ((a :: as) ++ '/' :: rel).length = (as.length + rel.length + 1) + 1 := by
    simp [List.length_append, List.length_cons]
    omega
  rw [hulen, pyReplaceAux_fires a as _ rel _ (le_refl _) hslash hrel]
  simp [pyJoin]

/-- Witness for C2 (amended): root `data`, split `train`, file
    `img001.png`. -/
theorem labelPath_replaces_split_segment_witness :
    labelPath "train".toList (pyJoin (pyJoin "data".toList "train".toList) "img001.png".toList) =
      pyJoin (pyJoin "data".toList ("train".toList ++ "annot".toList)) "img001.png".toList :=
  labelPath_replaces_split_segment "data".toList "train".toList "img001.png".toList
    (by decide) (by decide) (by decide) (by decide)

/-- Counterexample for C2 as stated: with root directory `train` (so the
    image path is `train/train/a.png`), `str.replace` rewrites every
    occurrence of the split string, producing
    `trainannot/trainannot/a.png` instead of `train/trainannot/a.png`;
    concretely `get(0)` then fails with NotFound even though the
    label file at the claimed path exists. -/
theorem labelPath_counterexample :
    labelPath "train".toList "train/train/a.png".toList =
      "trainannot/trainannot/a.png".toList ∧
    "trainannot/trainannot/a.png".toList ≠ "train/trainannot/a.png".toList ∧
    @CamVid_getitem ℕ
      (fun p => if p = "train/train/a.png".toList then some 1
                else if p = "train/trainannot/a.png".toList then some 2 else none)
      ⟨"train".toList, "train".toList, none, none, none, ["train/train/a.png".toList]⟩ 0 =
      .error .notFound := by
  exact ⟨by decide, by decide, rfl⟩
